import Mathlib

/-!
Verification development for the libvcs URL core (src/libvcs/url/git.py and
src/libvcs/url/base.py): the rule-based matching engine (Rule, RuleMap), the
resolver (`GitBaseURL.__post_init__`), the validator (`is_valid`) and the
serializer (`to_url` of `GitBaseURL` and `GitPipURL`).

Modelling conventions:
- Python strings are lists of characters (`Str`).
- A compiled regular expression is modelled extensionally by its full-match
  behavior: a function from a string to `none` (the whole string is not in the
  pattern's language) or `some groups` (the whole string matches, yielding the
  groupdict of named capture groups, unmatched groups mapped to `none`).
  This is exact for patterns without end anchors or lookarounds, which covers
  every pattern registered in the repository.
- Python `re.match` tries the pattern at the start of the string only, so it
  succeeds exactly when some prefix of the string fully matches; `re.search`
  succeeds when some contiguous substring fully matches.  The resolver in
  `__post_init__` uses `re.match`; `is_valid` uses `re.search`.
- A Python object's attribute namespace (written to by `setattr` in
  `__post_init__`) is an association list from attribute names to string
  values; an absent key models an attribute that is `None`/unset.
-/

namespace LibVcs

/-- Python strings, modelled as lists of characters. -/
abbrev Str := List Char

/-- A groupdict: named capture groups to optionally captured values. -/
abbrev Groups := List (Str × Option Str)

/-- A compiled regex, modelled by its full-anchored-match behavior. -/
abbrev RegexPattern := Str → Option Groups

/-- Python `re.match(pattern, s)`: match anchored at the start of `s` only.
It succeeds iff some prefix of `s` is fully matched by the pattern; the
greedy engine is modelled by trying the longest prefix first. -/
def reMatch (p : RegexPattern) (s : Str) : Option Groups :=
  s.inits.reverse.findSome? p

/-- Python `re.search(pattern, s)` viewed as a boolean: an unanchored scan,
succeeding iff some contiguous substring of `s` is fully matched. -/
def reSearch (p : RegexPattern) (s : Str) : Bool :=
  s.tails.any fun t => t.inits.any fun u => (p u).isSome

/-- An attribute namespace: attribute names to string values. -/
abbrev Attrs := List (Str × Str)

/-- Python `getattr(obj, k, None)`: `none` when the attribute is unset. -/
def getAttr (l : Attrs) (k : Str) : Option Str :=
  match l with
  | [] => none
  | kv :: rest => if kv.1 = k then some kv.2 else getAttr rest k

/-- Python `setattr(obj, k, v)`: overwrite the binding for `k` or add one. -/
def setAttr (l : Attrs) (k : Str) (v : Str) : Attrs :=
  match l with
  | [] => [(k, v)]
  | kv :: rest => if kv.1 = k then (k, v) :: rest else kv :: setAttr rest k v

/-- A matching rule (class `Rule` in git.py, named `Matcher` in the base.py of
this snapshot): label, description, compiled pattern, defaults for fields left
unset after matching, explicitness flag, precedence weight. -/
structure Rule where
  label : Str
  description : Str
  pattern : RegexPattern
  defaults : List (Str × Str) := []
  is_explicit : Bool := false
  weight : Int := 0

/-- Precedence order used by the resolver: higher weight first.  Python
`sorted(..., key=lambda item: item[1].weight, reverse=True)` is a stable sort,
modelled by `List.insertionSort` with this relation. -/
def ruleGE (a b : Rule) : Prop := b.weight ≤ a.weight

instance : DecidableRel ruleGE := fun a b => inferInstanceAs (Decidable (b.weight ≤ a.weight))

instance : IsTotal Rule ruleGE := ⟨fun a b => le_total b.weight a.weight⟩

instance : IsTrans Rule ruleGE := ⟨fun _ _ _ h1 h2 => le_trans h2 h1⟩

/-- The rule list sorted by weight descending, stably (equal weights keep
registry insertion order), as built in `__post_init__`. -/
def sortRules (rules : List Rule) : List Rule :=
  List.insertionSort ruleGE rules

/-- The first rule in the list whose pattern `re.match`-es the url, together
with the groupdict of that match (the loop in `__post_init__`). -/
def firstMatch (rules : List Rule) (url : Str) : Option (Rule × Groups) :=
  rules.findSome? fun r => (reMatch r.pattern url).map fun g => (r, g)

/-- Attribute names used by the parser's dataclass fields. -/
def kUrl : Str := ("url").data

def kRule : Str := ("rule").data

def kScheme : Str := ("scheme").data

def kUser : Str := ("user").data

def kHostname : Str := ("hostname").data

def kPort : Str := ("port").data

def kPath : Str := ("path").data

def kSuffix : Str := ("suffix").data

def kRev : Str := ("rev").data

/-- The capture-application loop of `__post_init__`: for every named group
with a non-null value, `setattr` the corresponding attribute. -/
def applyGroups (l : Attrs) (g : Groups) : Attrs :=
  g.foldl (fun acc kv =>
    match kv.2 with
    | some v => setAttr acc kv.1 v
    | none => acc) l

/-- The defaults loop of `__post_init__`: for every key of `rule.defaults`
whose attribute is still unset, `setattr` it to the default value. -/
def applyDefaults (l : Attrs) (ds : List (Str × Str)) : Attrs :=
  ds.foldl (fun acc kv =>
    match getAttr acc kv.1 with
    | some _ => acc
    | none => setAttr acc kv.1 kv.2) l

/-- A parsed locator: the attribute namespace of a `GitBaseURL` instance. -/
structure GitBaseURL where
  attrs : Attrs
deriving DecidableEq

/-- Attribute lookup on a locator. -/
def GitBaseURL.get (l : GitBaseURL) (k : Str) : Option Str :=
  getAttr l.attrs k

/-- The resolver, `GitBaseURL.__post_init__`: sort the registry's rules by
weight descending (stable), take the first rule whose pattern `re.match`-es
the url, record its label as `rule`, apply its non-null captures, then its
defaults for still-unset fields, and stop.  When no rule matches, the object
is left as constructed: only `url` is set. -/
def GitBaseURL.postInit (url : Str) (rules : List Rule) : GitBaseURL :=
  match firstMatch (sortRules rules) url with
  | none => ⟨[(kUrl, url)]⟩
  | some (r, g) =>
    ⟨applyDefaults (applyGroups (setAttr [(kUrl, url)] kRule r.label) g) r.defaults⟩

/-- The validator, `GitBaseURL.is_valid`: with an explicitness argument the
candidate rules are first restricted to those whose `is_explicit` equals it;
a rule counts via unanchored `re.search`. -/
def GitBaseURL.is_valid (rules : List Rule) (url : Str) (isExplicitArg : Option Bool) : Bool :=
  match isExplicitArg with
  | some b => (rules.filter fun r => r.is_explicit == b).any fun r => reSearch r.pattern url
  | none => rules.any fun r => reSearch r.pattern url

/-- Concatenation of the parts list of `to_url`: Python
`"".join(part for part in parts if isinstance(part, str))` drops the `None`
entries and concatenates the rest. -/
def joinParts (parts : List (Option Str)) : Str :=
  (parts.filterMap id).flatten

/-- The serializer `GitBaseURL.to_url`: scheme-qualified shape when `scheme`
is set, otherwise the authority (scp-like) shape with `self.user or "git"`;
the suffix is appended when truthy (set and non-empty). -/
def GitBaseURL.to_url (l : GitBaseURL) : Str :=
  let parts : List (Option Str) :=
    match l.get kScheme with
    | some sch => [some sch, some (("://").data), l.get kHostname, some (("/").data), l.get kPath]
    | none =>
      let u : Str :=
        match l.get kUser with
        | some u => if u = [] then ("git").data else u
        | none => ("git").data
      [some u, some (("@").data), l.get kHostname, some ((":").data), l.get kPath]
  let parts2 : List (Option Str) :=
    match l.get kSuffix with
    | some suf => if suf = [] then parts else parts ++ [some suf]
    | none => parts
  joinParts parts2

/-- The serializer `GitPipURL.to_url`: the base shape, then `@{rev}` appended
when `rev` is truthy (set and non-empty). -/
def GitPipURL.to_url (l : GitBaseURL) : Str :=
  let url := GitBaseURL.to_url l
  match l.get kRev with
  | some rev => if rev = [] then url else url ++ ("@").data ++ rev
  | none => url

/-- The registry (`RuleMap` in git.py, `MatcherRegistry` in the base.py of
this snapshot): an insertion-ordered mapping from labels to rules. -/
structure RuleMap where
  _rule_map : List (Str × Rule)

/-- Labels currently registered. -/
def RuleMap.labels (m : RuleMap) : List Str :=
  m._rule_map.map Prod.fst

/-- `register`: a no-op when the label is already present, otherwise the rule
is added at the end under its label. -/
def RuleMap.register (m : RuleMap) (cls : Rule) : RuleMap :=
  if cls.label ∈ m.labels then m else ⟨m._rule_map ++ [(cls.label, cls)]⟩

/-- `unregister`: delete the binding when the label is present, else no-op. -/
def RuleMap.unregister (m : RuleMap) (label : Str) : RuleMap :=
  if label ∈ m.labels then ⟨m._rule_map.eraseP (fun kv => kv.1 == label)⟩ else m

/-- `values`: the registered rules in insertion order. -/
def RuleMap.values (m : RuleMap) : List Rule :=
  m._rule_map.map Prod.snd

/-- Full-match behavior of the doctest rule pattern from base.py (class
GitLabPrefix in the `register` docstring): the regex is a literal `gitlab:`
anchored at the start and followed by an empty named group `path`, so the
only fully matched string is `gitlab:` itself, with `path` capturing the
empty string. -/
def gitLabDoctestAccept : RegexPattern := fun s =>
  if s = ("gitlab:").data then some [(kPath, some [])] else none

/-- The doctest rule from base.py: label `gl-prefix`, the pattern above, and
defaults for hostname, scheme and suffix. -/
def gitLabDoctestRule : Rule :=
  { label := ("gl-prefix").data
    description := ("Matches prefixes like gitlab:org/repo").data
    pattern := gitLabDoctestAccept
    defaults := [(kHostname, ("gitlab.com").data), (kScheme, ("https").data),
                 (kSuffix, (".git").data)]
    is_explicit := false
    weight := 0 }

/-- The port capture group of RE_PATH in git.py: a string of one to five
digit characters. -/
def portAccept (s : Str) : Bool :=
  decide (1 ≤ s.length) && decide (s.length ≤ 5) && s.all fun c => c.isDigit

/-- Modelled from the spec: behavior of the `pip-url` rule's pattern at the
doctest input of `GitPipURL.to_url` in git.py.  The full pattern text
interpolates RE_USER and RE_PIP_REV from constants.py, which is absent from
the sources; the groupdict produced at this input is the one recorded in the
doctest (scheme, user, hostname, port, path, suffix captured; rev unmatched),
with the port group capturing the digit string `7999` per RE_PATH. -/
def pipUrlDoctestAccept : RegexPattern := fun s =>
  if s = ("git+ssh://git@bitbucket.example.com:7999/PROJ/repo.git").data then
    some [(kScheme, some (("git+ssh").data)), (kUser, some (("git").data)),
          (kHostname, some (("bitbucket.example.com").data)),
          (kPort, some (("7999").data)),
          (("separator").data, some (("/").data)),
          (kPath, some (("PROJ/repo").data)), (kSuffix, some ((".git").data)),
          (kRev, none)]
  else none

/-- The `pip-url` rule of PIP_DEFAULT_RULES in git.py, with its pattern
restricted to the behavior recorded above. -/
def pipUrlDoctestRule : Rule :=
  { label := ("pip-url").data
    description := ("pip-style git URL").data
    pattern := pipUrlDoctestAccept
    defaults := []
    is_explicit := true
    weight := 0 }

/-- The suffix component of the serialized string: the suffix verbatim when
set and non-empty (Python truthiness of `self.suffix`), nothing otherwise. -/
def suffixPart (l : GitBaseURL) : Str :=
  match l.get kSuffix with
  | some s => if s = [] then [] else s
  | none => []

/-- The user component of the authority shape, `self.user or "git"`: the
user when set and non-empty, the literal `git` otherwise. -/
def userOrGit (l : GitBaseURL) : Str :=
  match l.get kUser with
  | some u => if u = [] then ("git").data else u
  | none => ("git").data

/-- The revision component of the package-manager shape: `@{rev}` when `rev`
is set and non-empty (Python truthiness of `self.rev`), nothing otherwise. -/
def revPart (l : GitBaseURL) : Str :=
  match l.get kRev with
  | some r => if r = [] then [] else ("@").data ++ r
  | none => []

/-- A rule whose pattern accepts every string, with weight 1 (used as a
concrete registry entry when instantiating general theorems). -/
def ruleHigh : Rule :=
  { label := ("high").data
    description := []
    pattern := fun _ => some []
    defaults := []
    is_explicit := false
    weight := 1 }

/-- A rule whose pattern accepts every string, with weight 0. -/
def ruleLow : Rule :=
  { label := ("low").data
    description := []
    pattern := fun _ => some []
    defaults := []
    is_explicit := true
    weight := 0 }

/-- Reading back the attribute just written. -/
theorem getAttr_setAttr_self (l : Attrs) (k v : Str) :
    getAttr (setAttr l k v) k = some v := by
  induction l with
  | nil => simp [setAttr, getAttr]
  | cons kv rest ih =>
    by_cases hk : kv.1 = k
    · simp [setAttr, hk, getAttr]
    · simp [setAttr, hk, getAttr, ih]

/-- Writing one attribute leaves the others unchanged. -/
theorem getAttr_setAttr_ne (l : Attrs) (k' k v : Str) (hkk : k' ≠ k) :
    getAttr (setAttr l k' v) k = getAttr l k := by
  induction l with
  | nil => simp [setAttr, getAttr, hkk]
  | cons kv rest ih =>
    by_cases hk : kv.1 = k'
    · simp [setAttr, hk, getAttr, hkk]
    · simp only [setAttr, hk, if_false, getAttr, ih]

/-- The defaults loop never touches an attribute that is already set. -/
theorem applyDefaults_preserves_some (ds : List (Str × Str)) (l : Attrs) (k v : Str)
    (h : getAttr l k = some v) : getAttr (applyDefaults l ds) k = some v := by
  induction ds generalizing l with
  | nil => simpa [applyDefaults] using h
  | cons kv rest ih =>
    have hstep : applyDefaults l (kv :: rest) =
        applyDefaults (match getAttr l kv.1 with
          | some _ => l
          | none => setAttr l kv.1 kv.2) rest := rfl
    rw [hstep]
    cases hk : getAttr l kv.1 with
    | some w => exact ih l h
    | none =>
      have hne : kv.1 ≠ k := fun he => by rw [he, h] at hk; exact Option.noConfusion hk
      exact ih _ (by rw [getAttr_setAttr_ne _ _ _ _ hne]; exact h)

/-- The captures loop leaves unmentioned attributes unchanged. -/
theorem applyGroups_not_mem (g : Groups) (l : Attrs) (k : Str)
    (hk : k ∉ g.map Prod.fst) : getAttr (applyGroups l g) k = getAttr l k := by
  induction g generalizing l with
  | nil => rfl
  | cons kv rest ih =>
    have hne : kv.1 ≠ k := fun he => hk (by simp [he])
    have hrest : k ∉ rest.map Prod.fst := fun hm => hk (by simp [hm])
    cases hv : kv.2 with
    | some v =>
      have hstep : applyGroups l (kv :: rest) = applyGroups (setAttr l kv.1 v) rest := by
        simp [applyGroups, hv]
      rw [hstep, ih _ hrest, getAttr_setAttr_ne _ _ _ _ hne]
    | none =>
      have hstep : applyGroups l (kv :: rest) = applyGroups l rest := by
        simp [applyGroups, hv]
      rw [hstep, ih _ hrest]

/-- A named group with a non-null captured value is written to the
attribute namespace by the captures loop. -/
theorem applyGroups_sets (g : Groups) (l : Attrs) (k v : Str)
    (hnd : (g.map Prod.fst).Nodup) (hmem : (k, some v) ∈ g) :
    getAttr (applyGroups l g) k = some v := by
  induction g generalizing l with
  | nil => exact absurd hmem (List.not_mem_nil _)
  | cons kv rest ih =>
    rcases List.mem_cons.mp hmem with he | ht
    · have hrest : k ∉ rest.map Prod.fst := by
        have := (List.nodup_cons.mp hnd).1
        rw [← he] at this
        simpa using this
      have hstep : applyGroups l (kv :: rest) = applyGroups (setAttr l k v) rest := by
        simp [applyGroups, ← he]
      rw [hstep, applyGroups_not_mem _ _ _ hrest, getAttr_setAttr_self]
    · have hnd' := (List.nodup_cons.mp hnd).2
      cases hv : kv.2 with
      | some w =>
        have hstep : applyGroups l (kv :: rest) = applyGroups (setAttr l kv.1 w) rest := by
          simp [applyGroups, hv]
        rw [hstep]; exact ih _ hnd' ht
      | none =>
        have hstep : applyGroups l (kv :: rest) = applyGroups l rest := by
          simp [applyGroups, hv]
        rw [hstep]; exact ih _ hnd' ht

/-- A default entry fills its field when that field is still unset. -/
theorem applyDefaults_fills (ds : List (Str × Str)) (l : Attrs) (k d : Str)
    (hnd : (ds.map Prod.fst).Nodup) (hmem : (k, d) ∈ ds) (hun : getAttr l k = none) :
    getAttr (applyDefaults l ds) k = some d := by
  induction ds generalizing l with
  | nil => exact absurd hmem (List.not_mem_nil _)
  | cons kv rest ih =>
    rcases List.mem_cons.mp hmem with he | ht
    · have hstep : applyDefaults l (kv :: rest) = applyDefaults (setAttr l k d) rest := by
        simp [applyDefaults, ← he, hun]
      rw [hstep]
      exact applyDefaults_preserves_some _ _ _ _ (getAttr_setAttr_self _ _ _)
    · have hne : kv.1 ≠ k := by
        intro he
        have := (List.nodup_cons.mp hnd).1
        exact this (he ▸ (List.mem_map.mpr ⟨(k, d), ht, rfl⟩))
      have hnd' := (List.nodup_cons.mp hnd).2
      cases hk : getAttr l kv.1 with
      | some w =>
        have hstep : applyDefaults l (kv :: rest) = applyDefaults l rest := by
          simp [applyDefaults, hk]
        rw [hstep]; exact ih _ hnd' ht hun
      | none =>
        have hstep : applyDefaults l (kv :: rest) = applyDefaults (setAttr l kv.1 kv.2) rest := by
          simp [applyDefaults, hk]
        rw [hstep]
        exact ih _ hnd' ht (by rw [getAttr_setAttr_ne _ _ _ _ hne]; exact hun)

/-- Python `re.match` semantics, characterized: it succeeds exactly when
some prefix of the input is fully matched by the pattern. -/
theorem reMatch_isSome_iff (p : RegexPattern) (s : Str) :
    (reMatch p s).isSome = true ↔ ∃ t, t <+: s ∧ (p t).isSome = true := by
  simp [reMatch, List.findSome?_isSome_iff, List.mem_reverse, List.mem_inits]

/-- Python `re.search` semantics, characterized: it succeeds exactly when
some contiguous substring of the input is fully matched by the pattern. -/
theorem reSearch_iff (p : RegexPattern) (s : Str) :
    reSearch p s = true ↔ ∃ t, t <:+: s ∧ (p t).isSome = true := by
  simp only [reSearch, List.any_eq_true, List.mem_tails, List.mem_inits]
  constructor
  · rintro ⟨t, hts, u, hut, hu⟩
    exact ⟨u, List.infix_iff_prefix_suffix.mpr ⟨t, hut, hts⟩, hu⟩
  · rintro ⟨u, hinf, hu⟩
    rcases List.infix_iff_prefix_suffix.mp hinf with ⟨t, hut, hts⟩
    exact ⟨t, hts, u, hut, hu⟩

/-- Two distinct members of a duplicate-free list occur in one of the two
orders. -/
theorem sublist_pair_or {α : Type} {a b : α} (l : List α) (hnd : l.Nodup)
    (ha : a ∈ l) (hb : b ∈ l) (hab : a ≠ b) : List.Sublist [a, b] l ∨ List.Sublist [b, a] l := by
  induction l with
  | nil => exact absurd ha (List.not_mem_nil a)
  | cons x t ih =>
    rcases List.mem_cons.mp ha with rfl | hat
    · have hbt : b ∈ t := by
        rcases List.mem_cons.mp hb with rfl | hbt
        · exact absurd rfl hab
        · exact hbt
      exact Or.inl ((List.singleton_sublist.mpr hbt).cons₂ a)
    · rcases List.mem_cons.mp hb with rfl | hbt
      · exact Or.inr ((List.singleton_sublist.mpr hat).cons₂ b)
      · rcases ih (List.nodup_cons.mp hnd).2 hat hbt with h | h
        · exact Or.inl (h.cons x)
        · exact Or.inr (h.cons x)

/-- When the labels of a rule list are duplicate-free, members are determined
by their label. -/
theorem nodup_label_inj (l : List Rule) (hnd : (l.map Rule.label).Nodup) :
    ∀ a ∈ l, ∀ b ∈ l, a.label = b.label → a = b := by
  induction l with
  | nil => intro a ha; exact absurd ha (List.not_mem_nil a)
  | cons x t ih =>
    rw [List.map_cons, List.nodup_cons] at hnd
    have hx : x.label ∉ t.map Rule.label := hnd.1
    have hnd' : (t.map Rule.label).Nodup := hnd.2
    intro a ha b hb he
    rcases List.mem_cons.mp ha with rfl | hat
    · rcases List.mem_cons.mp hb with rfl | hbt
      · rfl
      · exact absurd (List.mem_map.mpr ⟨b, hbt, he.symm⟩) hx
    · rcases List.mem_cons.mp hb with rfl | hbt
      · exact absurd (List.mem_map.mpr ⟨a, hat, he⟩) hx
      · exact ih hnd' a hat b hbt he

/-- The scan of the resolver finds something when some listed rule
`re.match`-es the url. -/
theorem firstMatch_isSome_of_mem (l : List Rule) (url : Str) (r : Rule)
    (hr : r ∈ l) (hm : (reMatch r.pattern url).isSome = true) :
    (firstMatch l url).isSome = true := by
  have : ∃ x, x ∈ l ∧ (((reMatch x.pattern url).map fun g => (x, g)).isSome = true) := by
    refine ⟨r, hr, ?_⟩
    simpa using hm
  simpa [firstMatch, List.findSome?_isSome_iff] using this

/-- What the scan returns: a listed rule together with its match result. -/
theorem firstMatch_mem_and_match (l : List Rule) (url : Str) (w : Rule) (g : Groups)
    (h : firstMatch l url = some (w, g)) : w ∈ l ∧ reMatch w.pattern url = some g := by
  rw [firstMatch, List.findSome?_eq_some_iff] at h
  rcases h with ⟨l1, x, l2, hdec, hx, hnone⟩
  rcases Option.map_eq_some'.mp hx with ⟨g', hg', he⟩
  have hxw : x = w := congrArg Prod.fst he
  have hgg : g' = g := congrArg Prod.snd he
  subst hxw; subst hgg
  exact ⟨hdec ▸ List.mem_append.mpr (Or.inr (List.mem_cons_self _ _)), hg'⟩

/-- The scan never returns a rule listed after a matching rule. -/
theorem firstMatch_skips_later (url : Str) (a b : Rule) (hab : a ≠ b)
    (hma : (reMatch a.pattern url).isSome = true) :
    ∀ (l : List Rule), l.Nodup → List.Sublist [a, b] l →
      ∀ w g, firstMatch l url = some (w, g) → w ≠ b := by
  intro l
  induction l with
  | nil => intro _ hsub; exact absurd (List.sublist_nil.mp hsub) (by simp)
  | cons x t ih =>
    intro hnd hsub w g hfm
    cases hx : reMatch x.pattern url with
    | some gx =>
      have hw : w = x := by
        simp [firstMatch, List.findSome?_cons, hx] at hfm
        exact hfm.1.symm
      subst hw
      cases hsub with
      | cons _ hsub' =>
        have hbt : b ∈ t := hsub'.subset (by simp)
        have hxt : w ∉ t := (List.nodup_cons.mp hnd).1
        exact fun he => hxt (he ▸ hbt)
      | cons₂ _ hsub' => exact hab
    | none =>
      have hfm' : firstMatch t url = some (w, g) := by
        simpa [firstMatch, List.findSome?_cons, hx] using hfm
      cases hsub with
      | cons _ hsub' => exact ih (List.nodup_cons.mp hnd).2 hsub' w g hfm'
      | cons₂ _ hsub' =>
        rw [hx] at hma
        exact absurd hma (by simp)

/-- The scan stops at the first matching rule: later rules are never
consulted. -/
theorem firstMatch_append_of_none (url : Str) (w : Rule) (g : Groups)
    (pre post : List Rule) (hmiss : ∀ r ∈ pre, reMatch r.pattern url = none)
    (hw : reMatch w.pattern url = some g) :
    firstMatch (pre ++ w :: post) url = some (w, g) := by
  induction pre with
  | nil => simp [firstMatch, List.findSome?_cons, hw]
  | cons r rest ih =>
    have hr : reMatch r.pattern url = none := hmiss r (List.mem_cons_self _ _)
    have hrest : ∀ x ∈ rest, reMatch x.pattern url = none := fun x hx =>
      hmiss x (List.mem_cons_of_mem _ hx)
    simpa [firstMatch, List.findSome?_cons, hr] using ih hrest

/-- C3 (amended): the resolver counts a rule as matching via `re.match`,
which is anchored at the start of the input only: a rule counts as matching
exactly when its pattern fully matches some prefix of the input, so trailing
unmatched input is allowed and a match of the entire string is not
required. -/
theorem c3_resolver_match_anchored_at_start_only (r : Rule) (url : Str) :
    (firstMatch [r] url).isSome = true ↔ ∃ t, t <+: url ∧ (r.pattern t).isSome = true := by
  have h1 : (firstMatch [r] url).isSome = (reMatch r.pattern url).isSome := by
    cases h : reMatch r.pattern url <;> simp [firstMatch, List.findSome?_cons, h]
  rw [h1, reMatch_isSome_iff]

/-- C3, counterexample to the claim as stated: with the doctest rule of
base.py, the resolver counts the input `gitlab:vcs-python/libvcs` as matched
and records the rule label, although the pattern matches only the proper
prefix `gitlab:` and not the entire input. -/
theorem c3_counterexample :
    (firstMatch [gitLabDoctestRule] (("gitlab:vcs-python/libvcs").data)).isSome = true ∧
    gitLabDoctestRule.pattern (("gitlab:vcs-python/libvcs").data) = none ∧
    (GitBaseURL.postInit (("gitlab:vcs-python/libvcs").data) [gitLabDoctestRule]).get kRule =
      some (("gl-prefix").data) := by decide

/-- C4: with no explicitness filter, `is_valid` is true exactly when some
rule's pattern matches some contiguous substring of the input (unanchored
search); with a filter, the candidates are first restricted to the rules
whose `is_explicit` flag equals the requested value. -/
theorem c4_is_valid_unanchored_search (rules : List Rule) (url : Str) :
    (GitBaseURL.is_valid rules url none = true ↔
      ∃ r ∈ rules, ∃ t, t <:+: url ∧ (r.pattern t).isSome = true) ∧
    ∀ b : Bool, (GitBaseURL.is_valid rules url (some b) = true ↔
      ∃ r ∈ rules, r.is_explicit = b ∧ ∃ t, t <:+: url ∧ (r.pattern t).isSome = true) := by
  constructor
  · simp [GitBaseURL.is_valid, List.any_eq_true, reSearch_iff]
  · intro b
    simp only [GitBaseURL.is_valid, List.any_eq_true, List.mem_filter, beq_iff_eq, reSearch_iff]
    constructor
    · rintro ⟨r, ⟨hr, he⟩, hs⟩; exact ⟨r, hr, he, hs⟩
    · rintro ⟨r, hr, he, hs⟩; exact ⟨r, ⟨hr, he⟩, hs⟩

/-- C10: since every rule's `is_explicit` flag is a boolean, the explicit and
non-explicit candidate sets partition the registry, so unfiltered validation
is the disjunction of the two filtered validations. -/
theorem c10_is_valid_explicit_partition (rules : List Rule) (url : Str) :
    GitBaseURL.is_valid rules url none =
      (GitBaseURL.is_valid rules url (some true) || GitBaseURL.is_valid rules url (some false)) := by
  rw [Bool.eq_iff_iff]
  simp only [Bool.or_eq_true, GitBaseURL.is_valid, List.any_eq_true, List.mem_filter, beq_iff_eq]
  constructor
  · rintro ⟨r, hr, hs⟩
    cases he : r.is_explicit
    · exact Or.inr ⟨r, ⟨hr, he⟩, hs⟩
    · exact Or.inl ⟨r, ⟨hr, he⟩, hs⟩
  · rintro (⟨r, ⟨hr, _⟩, hs⟩ | ⟨r, ⟨hr, _⟩, hs⟩) <;> exact ⟨r, hr, hs⟩

/-- C9: registering a rule whose label is already present leaves the registry
unchanged, unregistering an absent label leaves it unchanged, and both
operations preserve uniqueness of labels. -/
theorem c9_register_unregister_no_ops (m : RuleMap) (cls : Rule) (lab : Str)
    (hnd : m.labels.Nodup) :
    (cls.label ∈ m.labels → m.register cls = m) ∧
    (lab ∉ m.labels → m.unregister lab = m) ∧
    (m.register cls).labels.Nodup ∧ (m.unregister lab).labels.Nodup := by
  refine ⟨?_, ?_, ?_, ?_⟩
  · intro h; simp [RuleMap.register, h]
  · intro h; simp [RuleMap.unregister, h]
  · by_cases h : cls.label ∈ m.labels
    · simp only [RuleMap.register, if_pos h]; exact hnd
    · simp only [RuleMap.register, if_neg h]
      show (List.map Prod.fst (m._rule_map ++ [(cls.label, cls)])).Nodup
      rw [List.map_append, List.nodup_append]
      refine ⟨hnd, List.nodup_singleton _, ?_⟩
      intro a ha hb
      simp only [List.map_singleton, List.mem_singleton] at hb
      exact h (by rw [← hb]; exact ha)
  · by_cases h : lab ∈ m.labels
    · have hsub : List.Sublist (m._rule_map.eraseP (fun kv => kv.1 == lab)) m._rule_map :=
        List.eraseP_sublist m._rule_map
      have hmap : List.Sublist ((m._rule_map.eraseP (fun kv => kv.1 == lab)).map Prod.fst)
          (m._rule_map.map Prod.fst) := hsub.map Prod.fst
      simp only [RuleMap.unregister, if_pos h]
      exact List.Nodup.sublist hmap hnd
    · simp only [RuleMap.unregister, if_neg h]; exact hnd

/-- C9, witness at a one-entry registry. -/
theorem c9_register_unregister_no_ops_witness :
    (gitLabDoctestRule.label ∈ (RuleMap.mk [(("gl-prefix").data, gitLabDoctestRule)]).labels →
      (RuleMap.mk [(("gl-prefix").data, gitLabDoctestRule)]).register gitLabDoctestRule =
        RuleMap.mk [(("gl-prefix").data, gitLabDoctestRule)]) ∧
    (("x").data ∉ (RuleMap.mk [(("gl-prefix").data, gitLabDoctestRule)]).labels →
      (RuleMap.mk [(("gl-prefix").data, gitLabDoctestRule)]).unregister (("x").data) =
        RuleMap.mk [(("gl-prefix").data, gitLabDoctestRule)]) ∧
    ((RuleMap.mk [(("gl-prefix").data, gitLabDoctestRule)]).register gitLabDoctestRule).labels.Nodup ∧
    ((RuleMap.mk [(("gl-prefix").data, gitLabDoctestRule)]).unregister (("x").data)).labels.Nodup :=
  c9_register_unregister_no_ops (RuleMap.mk [(("gl-prefix").data, gitLabDoctestRule)])
    gitLabDoctestRule (("x").data) (by decide)

/-- C5 (amended): with hostname and path set, serialization emits the
scheme-qualified shape when `scheme` is set and the authority shape
otherwise, appending the suffix only when it is set and non-empty; the
package-manager flavor appends `@{rev}` when `rev` is set and non-empty.
The output is a pure function of the current field values, so mutating a
field changes the output of the next call accordingly. -/
theorem c5_to_url_shapes (l : GitBaseURL) (h p : Str)
    (hh : l.get kHostname = some h) (hp : l.get kPath = some p) :
    (∀ sch, l.get kScheme = some sch →
      GitBaseURL.to_url l = sch ++ ("://").data ++ h ++ ("/").data ++ p ++ suffixPart l) ∧
    (l.get kScheme = none →
      GitBaseURL.to_url l = userOrGit l ++ ("@").data ++ h ++ (":").data ++ p ++ suffixPart l) ∧
    GitPipURL.to_url l = GitBaseURL.to_url l ++ revPart l := by
  refine ⟨?_, ?_, ?_⟩
  · intro sch hs
    cases hsf : l.get kSuffix with
    | none => simp [GitBaseURL.to_url, hs, hh, hp, hsf, suffixPart, joinParts, List.append_assoc]
    | some suf =>
      by_cases hse : suf = [] <;>
        simp [GitBaseURL.to_url, hs, hh, hp, hsf, hse, suffixPart, joinParts, List.append_assoc]
  · intro hs
    cases hsf : l.get kSuffix with
    | none =>
      simp [GitBaseURL.to_url, hs, hh, hp, hsf, suffixPart, userOrGit, joinParts,
        List.append_assoc]
    | some suf =>
      by_cases hse : suf = [] <;>
        simp [GitBaseURL.to_url, hs, hh, hp, hsf, hse, suffixPart, userOrGit, joinParts,
          List.append_assoc]
  · cases hr : l.get kRev with
    | none => simp [GitPipURL.to_url, hr, revPart]
    | some rv =>
      by_cases hre : rv = [] <;> simp [GitPipURL.to_url, hr, hre, revPart, List.append_assoc]

/-- C5, counterexample to the claim as stated: a locator whose `rev` field is
present but empty; the package-manager serializer appends nothing, not
`@{rev}` (Python tests `if self.rev:`, i.e. truthiness, not presence). -/
theorem c5_counterexample :
    GitPipURL.to_url (GitBaseURL.mk [(kScheme, ("https").data), (kHostname, ("h").data),
        (kPath, ("p").data), (kRev, [])]) = ("https://h/p").data ∧
    ("https://h/p").data ≠ ("https://h/p@").data := by decide

/-- C5, witness at a concrete locator with all fields set. -/
theorem c5_to_url_shapes_witness :
    (∀ sch, (GitBaseURL.mk [(kScheme, ("https").data), (kHostname, ("github.com").data),
        (kPath, ("org/repo").data), (kSuffix, (".git").data),
        (kRev, ("v1").data)]).get kScheme = some sch →
      GitBaseURL.to_url (GitBaseURL.mk [(kScheme, ("https").data),
          (kHostname, ("github.com").data), (kPath, ("org/repo").data),
          (kSuffix, (".git").data), (kRev, ("v1").data)]) =
        sch ++ ("://").data ++ ("github.com").data ++ ("/").data ++ ("org/repo").data ++
          suffixPart (GitBaseURL.mk [(kScheme, ("https").data),
            (kHostname, ("github.com").data), (kPath, ("org/repo").data),
            (kSuffix, (".git").data), (kRev, ("v1").data)])) ∧
    ((GitBaseURL.mk [(kScheme, ("https").data), (kHostname, ("github.com").data),
        (kPath, ("org/repo").data), (kSuffix, (".git").data),
        (kRev, ("v1").data)]).get kScheme = none →
      GitBaseURL.to_url (GitBaseURL.mk [(kScheme, ("https").data),
          (kHostname, ("github.com").data), (kPath, ("org/repo").data),
          (kSuffix, (".git").data), (kRev, ("v1").data)]) =
        userOrGit (GitBaseURL.mk [(kScheme, ("https").data),
            (kHostname, ("github.com").data), (kPath, ("org/repo").data),
            (kSuffix, (".git").data), (kRev, ("v1").data)]) ++
          ("@").data ++ ("github.com").data ++ (":").data ++ ("org/repo").data ++
          suffixPart (GitBaseURL.mk [(kScheme, ("https").data),
            (kHostname, ("github.com").data), (kPath, ("org/repo").data),
            (kSuffix, (".git").data), (kRev, ("v1").data)])) ∧
    GitPipURL.to_url (GitBaseURL.mk [(kScheme, ("https").data),
        (kHostname, ("github.com").data), (kPath, ("org/repo").data),
        (kSuffix, (".git").data), (kRev, ("v1").data)]) =
      GitBaseURL.to_url (GitBaseURL.mk [(kScheme, ("https").data),
          (kHostname, ("github.com").data), (kPath, ("org/repo").data),
          (kSuffix, (".git").data), (kRev, ("v1").data)]) ++
        revPart (GitBaseURL.mk [(kScheme, ("https").data),
          (kHostname, ("github.com").data), (kPath, ("org/repo").data),
          (kSuffix, (".git").data), (kRev, ("v1").data)]) :=
  c5_to_url_shapes (GitBaseURL.mk [(kScheme, ("https").data),
      (kHostname, ("github.com").data), (kPath, ("org/repo").data),
      (kSuffix, (".git").data), (kRev, ("v1").data)])
    (("github.com").data) (("org/repo").data) (by decide) (by decide)

/-- C6 (amended): when no rule matches, construction still succeeds: the
resolver returns a locator whose only attribute is the original url, with
the matched rule left unset; no distinct failure is surfaced. -/
theorem c6_no_match_constructs_empty_locator (url : Str) (rules : List Rule)
    (hno : ∀ r ∈ rules, reMatch r.pattern url = none) :
    GitBaseURL.postInit url rules = GitBaseURL.mk [(kUrl, url)] ∧
    (GitBaseURL.postInit url rules).get kRule = none := by
  have hfm : firstMatch (sortRules rules) url = none := by
    rw [firstMatch, List.findSome?_eq_none_iff]
    intro r hr
    have hrr : r ∈ rules := ((List.perm_insertionSort ruleGE rules).mem_iff).mp hr
    simp [hno r hrr]
  have h1 : GitBaseURL.postInit url rules = GitBaseURL.mk [(kUrl, url)] := by
    simp [GitBaseURL.postInit, hfm]
  refine ⟨h1, ?_⟩
  rw [h1]
  have hne : kUrl ≠ kRule := by decide
  simp [GitBaseURL.get, getAttr, hne]

/-- C6, counterexample to the claim as stated: at a non-matching input the
constructor returns a locator with placeholder fields (only the url set,
rule unset) instead of surfacing a distinct failure. -/
theorem c6_counterexample :
    GitBaseURL.postInit (("notaurl").data) [gitLabDoctestRule] =
      GitBaseURL.mk [(kUrl, ("notaurl").data)] ∧
    (GitBaseURL.postInit (("notaurl").data) [gitLabDoctestRule]).get kRule = none := by decide

/-- C6, witness at the empty registry. -/
theorem c6_no_match_constructs_empty_locator_witness :
    GitBaseURL.postInit (("x").data) [] = GitBaseURL.mk [(kUrl, ("x").data)] ∧
    (GitBaseURL.postInit (("x").data) []).get kRule = none :=
  c6_no_match_constructs_empty_locator (("x").data) [] (by decide)

/-- C7 (amended): serialization never fails; for every locator it returns
the shape string in which absent components (hostname, path) are silently
omitted from the concatenation. -/
theorem c7_missing_fields_omitted (l : GitBaseURL) :
    GitBaseURL.to_url l =
      (match l.get kScheme with
       | some sch => sch ++ ("://").data ++ ((l.get kHostname).getD []) ++ ("/").data ++
           ((l.get kPath).getD [])
       | none => userOrGit l ++ ("@").data ++ ((l.get kHostname).getD []) ++ (":").data ++
           ((l.get kPath).getD [])) ++ suffixPart l := by
  cases hs : l.get kScheme with
  | some sch =>
    cases hh : l.get kHostname <;> cases hp : l.get kPath <;>
      cases hsf : l.get kSuffix with
      | none =>
        simp [GitBaseURL.to_url, hs, hh, hp, hsf, suffixPart, joinParts, List.append_assoc]
      | some suf =>
        by_cases hse : suf = [] <;>
          simp [GitBaseURL.to_url, hs, hh, hp, hsf, hse, suffixPart, joinParts,
            List.append_assoc]
  | none =>
    cases hh : l.get kHostname <;> cases hp : l.get kPath <;>
      cases hsf : l.get kSuffix with
      | none =>
        simp [GitBaseURL.to_url, hs, hh, hp, hsf, suffixPart, userOrGit, joinParts,
          List.append_assoc]
      | some suf =>
        by_cases hse : suf = [] <;>
          simp [GitBaseURL.to_url, hs, hh, hp, hsf, hse, suffixPart, userOrGit, joinParts,
            List.append_assoc]

/-- C7, counterexample to the claim as stated: with hostname and path both
absent, serialization does not fail with an error; it returns the string
`https:///` with the missing components silently omitted. -/
theorem c7_counterexample :
    GitBaseURL.to_url (GitBaseURL.mk [(kScheme, ("https").data)]) = ("https:///").data := by
  decide

/-- C8: the resolver stores the captured port as the raw digit string via
`setattr`, without parsing it to an integer, and the port group of RE_PATH
accepts any one-to-five digit run, so it accepts `99999`, which exceeds
65535. -/
theorem c8_port_stored_unparsed :
    (GitBaseURL.postInit (("git+ssh://git@bitbucket.example.com:7999/PROJ/repo.git").data)
        [pipUrlDoctestRule]).get kPort = some (("7999").data) ∧
    portAccept (("99999").data) = true ∧ (65535 : Nat) < 99999 := by decide

/-- C2: on the first matching rule, resolution writes every named capture
group with a non-null value to the corresponding field; a defaults entry is
then applied exactly when its field is still unset, so a default never
overwrites a captured non-null value; and the scan stops at the first
matching rule, never consulting later rules. -/
theorem c2_captures_beat_defaults (w : Rule) (url : Str) (g : Groups)
    (hg : (g.map Prod.fst).Nodup) (hd : (w.defaults.map Prod.fst).Nodup) :
    (∀ k v, (k, some v) ∈ g →
      getAttr (applyDefaults (applyGroups (setAttr [(kUrl, url)] kRule w.label) g) w.defaults) k
        = some v) ∧
    (∀ k d, (k, d) ∈ w.defaults →
      getAttr (applyDefaults (applyGroups (setAttr [(kUrl, url)] kRule w.label) g) w.defaults) k
        = some ((getAttr (applyGroups (setAttr [(kUrl, url)] kRule w.label) g) k).getD d)) ∧
    (∀ (pre post : List Rule), (∀ r ∈ pre, reMatch r.pattern url = none) →
      reMatch w.pattern url = some g →
      firstMatch (pre ++ w :: post) url = some (w, g)) := by
  refine ⟨?_, ?_, ?_⟩
  · intro k v hkv
    exact applyDefaults_preserves_some _ _ _ _ (applyGroups_sets g _ k v hg hkv)
  · intro k d hkd
    cases hres : getAttr (applyGroups (setAttr [(kUrl, url)] kRule w.label) g) k with
    | some v =>
      simp only [Option.getD_some]
      exact applyDefaults_preserves_some _ _ _ _ hres
    | none =>
      simp only [Option.getD_none]
      exact applyDefaults_fills _ _ _ _ hd hkd hres
  · intro pre post hmiss hw
    exact firstMatch_append_of_none url w g pre post hmiss hw

/-- C2, witness at the doctest rule and its groupdict. -/
theorem c2_captures_beat_defaults_witness :
    (∀ k v, (k, some v) ∈ [(kPath, some ([] : Str))] →
      getAttr (applyDefaults (applyGroups
          (setAttr [(kUrl, ("gitlab:x").data)] kRule gitLabDoctestRule.label)
          [(kPath, some ([] : Str))]) gitLabDoctestRule.defaults) k = some v) ∧
    (∀ k d, (k, d) ∈ gitLabDoctestRule.defaults →
      getAttr (applyDefaults (applyGroups
          (setAttr [(kUrl, ("gitlab:x").data)] kRule gitLabDoctestRule.label)
          [(kPath, some ([] : Str))]) gitLabDoctestRule.defaults) k
        = some ((getAttr (applyGroups
            (setAttr [(kUrl, ("gitlab:x").data)] kRule gitLabDoctestRule.label)
            [(kPath, some ([] : Str))]) k).getD d)) ∧
    (∀ (pre post : List Rule),
      (∀ r ∈ pre, reMatch r.pattern (("gitlab:x").data) = none) →
      reMatch gitLabDoctestRule.pattern (("gitlab:x").data) = some [(kPath, some ([] : Str))] →
      firstMatch (pre ++ gitLabDoctestRule :: post) (("gitlab:x").data) =
        some (gitLabDoctestRule, [(kPath, some ([] : Str))])) :=
  c2_captures_beat_defaults gitLabDoctestRule (("gitlab:x").data) [(kPath, some ([] : Str))]
    (by decide) (by decide)

/-- C1: the recorded rule outranks every other matching rule: the resolver
scans rules sorted by weight descending, stably (equal weights keep registry
insertion order), and stops at the first match, so the rule it records has
at least the weight of any matching rule, and a matching rule is never
recorded when a distinct matching rule has strictly higher weight, or equal
weight and earlier registration. -/
theorem c1_precedence (rules : List Rule) (url : Str) (a b : Rule)
    (hnd : (rules.map Rule.label).Nodup)
    (ha : a ∈ rules) (hb : b ∈ rules)
    (hma : (reMatch a.pattern url).isSome = true)
    (hmb : (reMatch b.pattern url).isSome = true)
    (hpre : b.weight < a.weight ∨ (a.weight = b.weight ∧ List.Sublist [a, b] rules)) :
    ∃ w g, firstMatch (sortRules rules) url = some (w, g) ∧ w ∈ rules ∧
      reMatch w.pattern url = some g ∧ a.weight ≤ w.weight ∧ w.label ≠ b.label ∧
      (kRule ∉ g.map Prod.fst →
        (GitBaseURL.postInit url rules).get kRule = some w.label) := by
  have hndr : rules.Nodup := List.Nodup.of_map _ hnd
  have hperm : List.Perm (sortRules rules) rules := List.perm_insertionSort ruleGE rules
  have hndS : (sortRules rules).Nodup := hperm.symm.nodup hndr
  have hsorted : List.Pairwise ruleGE (sortRules rules) := List.sorted_insertionSort ruleGE rules
  have haS : a ∈ sortRules rules := hperm.mem_iff.mpr ha
  have hbS : b ∈ sortRules rules := hperm.mem_iff.mpr hb
  have hab : a ≠ b := by
    rcases hpre with hlt | ⟨heq, hsub⟩
    · intro he; rw [he] at hlt; exact lt_irrefl _ hlt
    · intro he
      rw [he] at hsub
      have hdup : List.Nodup [b, b] := List.Nodup.sublist hsub hndr
      simp at hdup
  have habS : List.Sublist [a, b] (sortRules rules) := by
    rcases hpre with hlt | ⟨heq, hsub⟩
    · rcases sublist_pair_or (sortRules rules) hndS haS hbS hab with hgood | hbad
      · exact hgood
      · have hba : ruleGE b a := List.pairwise_pair.mp (List.Pairwise.sublist hbad hsorted)
        exact absurd hlt (not_lt.mpr hba)
    · exact List.pair_sublist_insertionSort (le_of_eq heq.symm) hsub
  have hsome : (firstMatch (sortRules rules) url).isSome = true :=
    firstMatch_isSome_of_mem _ url a haS hma
  rcases Option.isSome_iff_exists.mp hsome with ⟨wg, hfm⟩
  rcases wg with ⟨w, g⟩
  have hmm := firstMatch_mem_and_match _ url w g hfm
  have hwrules : w ∈ rules := hperm.mem_iff.mp hmm.1
  have hweight : a.weight ≤ w.weight := by
    have hfm' := hfm
    rw [firstMatch, List.findSome?_eq_some_iff] at hfm'
    rcases hfm' with ⟨l1, x, l2, hdec, hx, hnone⟩
    rcases Option.map_eq_some'.mp hx with ⟨g', hg', he⟩
    have hxw : x = w := congrArg Prod.fst he
    subst hxw
    have hnotl1 : a ∉ l1 := by
      intro hal1
      have hn := hnone a hal1
      rw [Option.map_eq_none'] at hn
      rw [hn] at hma
      simp at hma
    have haml : a ∈ l1 ++ x :: l2 := hdec ▸ haS
    rcases List.mem_append.mp haml with h1 | h2
    · exact absurd h1 hnotl1
    · rcases List.mem_cons.mp h2 with he2 | hal2
      · rw [he2]
      · have hpw : List.Pairwise ruleGE (l1 ++ x :: l2) := hdec ▸ hsorted
        have hcons := (List.pairwise_append.mp hpw).2.1
        exact (List.pairwise_cons.mp hcons).1 a hal2
  have hwb : w ≠ b :=
    firstMatch_skips_later url a b hab hma (sortRules rules) hndS habS w g hfm
  have hlabel : w.label ≠ b.label := fun he =>
    hwb (nodup_label_inj rules hnd w hwrules b hb he)
  refine ⟨w, g, hfm, hwrules, hmm.2, hweight, hlabel, ?_⟩
  intro hkr
  have hpost : GitBaseURL.postInit url rules =
      GitBaseURL.mk
        (applyDefaults (applyGroups (setAttr [(kUrl, url)] kRule w.label) g) w.defaults) := by
    simp [GitBaseURL.postInit, hfm]
  rw [hpost]
  show getAttr (applyDefaults (applyGroups (setAttr [(kUrl, url)] kRule w.label) g) w.defaults)
      kRule = some w.label
  exact applyDefaults_preserves_some _ _ _ _
    (by rw [applyGroups_not_mem g _ kRule hkr]; exact getAttr_setAttr_self _ _ _)

/-- C1, witness at a two-rule registry whose rules both match the empty
input, with weights 1 and 0. -/
theorem c1_precedence_witness :
    ∃ w g, firstMatch (sortRules [ruleHigh, ruleLow]) [] = some (w, g) ∧
      w ∈ [ruleHigh, ruleLow] ∧ reMatch w.pattern [] = some g ∧
      ruleHigh.weight ≤ w.weight ∧ w.label ≠ ruleLow.label ∧
      (kRule ∉ g.map Prod.fst →
        (GitBaseURL.postInit [] [ruleHigh, ruleLow]).get kRule = some w.label) :=
  c1_precedence [ruleHigh, ruleLow] [] ruleHigh ruleLow (by decide)
    (List.mem_cons_self _ _) (List.mem_cons_of_mem _ (List.mem_cons_self _ _))
    (by rfl) (by rfl) (Or.inl (by decide))

end LibVcs
